import Mathlib

/-!
Shallow embedding of the variate generators in `random/floats.py`.

The uniform source `self.random()` is modelled as a draw stream
`s : ℕ → R` together with a cursor `i : ℕ`: the k-th call to the source
returns `s (i+k)`.  A stream is well formed when every draw lies in
`[0,1)` (predicate `Unit01`).  Rejection loops take an explicit fuel
argument; an exhausted fuel yields `Outcome.spin`, a Python exception
yields `Outcome.err` carrying the error kind and the cursor position at
the moment of the raise, and a normal return yields `Outcome.ok` with
the value and the cursor after the consumed draws.

The transcendental primitives (`log`, `exp`, `sqrt`, `sin`, `cos`,
`acos`, `pi`, `e`, and `**` as `rpow`) are abstracted into a structure
`Prims R`, so that the control flow of each algorithm is stated once for
every linear ordered field; `Rprims` instantiates them with the real
functions for the claims that need facts about the real logarithm and
square root, and `qPrims` gives a rational instance on which concrete
runs evaluate by `decide`.
-/

/-- Kinds of Python exception the embedded code can raise. -/
inductive Err where
  | valueError : Err
  | zeroDivisionError : Err
  deriving DecidableEq

/-- Result of running an embedded operation against a draw stream:
a returned value with the new cursor, a raised exception with the cursor
at raise time, or fuel exhaustion inside a rejection loop. -/
inductive Outcome (R : Type) where
  | ok : R → ℕ → Outcome R
  | err : Err → ℕ → Outcome R
  | spin : Outcome R
  deriving DecidableEq

/-- Rescale the value of a successful outcome, leaving errors and
fuel exhaustion unchanged. -/
def Outcome.scale {R : Type} [Mul R] (b : R) : Outcome R → Outcome R
  | .ok x j => .ok (x * b) j
  | .err e j => .err e j
  | .spin => .spin

/-- The mathematical primitives used by `floats.py`, abstracted so the
algorithms can be stated over any linear ordered field. -/
structure Prims (R : Type) where
  log : R → R
  exp : R → R
  sqrt : R → R
  sin : R → R
  cos : R → R
  acos : R → R
  pi : R
  e : R
  rpow : R → R → R

/-- A draw stream is well formed when every value lies in `[0, 1)`,
the contract of `self.random()`. -/
def Unit01 {R : Type} [LinearOrderedField R] (s : ℕ → R) : Prop :=
  ∀ n, 0 ≤ s n ∧ s n < 1

section Embedding

variable {R : Type} [LinearOrderedField R]

/-- Module constant `TWOPI = 2.0*_pi`. -/
def TWOPI (P : Prims R) : R := 2 * P.pi

/-- Module constant `LOG4 = _log(4.0)`. -/
def LOG4 (P : Prims R) : R := P.log 4

/-- Module constant `SG_MAGICCONST = 1.0 + _log(4.5)`. -/
def SG_MAGICCONST (P : Prims R) : R := 1 + P.log (9 / 2)

/-- Python float `a % b` (sign of the result follows `b`). -/
def pymod [FloorRing R] (a b : R) : R := a - b * (⌊a / b⌋ : ℤ)

/-- The retry loop of `expovariate`: `u = random()` then
`while u <= 1e-7: u = random()`; returns the accepted draw and the
cursor after it. -/
def expoLoop (s : ℕ → R) : ℕ → ℕ → Option (R × ℕ)
  | _, 0 => none
  | i, fuel + 1 =>
      if s i ≤ 1 / 10 ^ 7 then expoLoop s (i + 1) fuel
      else some (s i, i + 1)

/-- `expovariate(lambd)`: retry-guarded draw, then `-_log(u)/lambd`
(a zero `lambd` raises a division error at the final division, as the
Python float division does). -/
def expovariate (P : Prims R) (lambd : R) (s : ℕ → R) (i fuel : ℕ) : Outcome R :=
  match expoLoop s i fuel with
  | none => .spin
  | some (u, j) =>
      if lambd = 0 then .err .zeroDivisionError j
      else .ok (-P.log u / lambd) j

/-- The `alpha == 1` branch of `gammavariate` inlines the same retry
loop as `expovariate` (`u = random(); while u <= 1e-7: u = random()`);
it is kept as a separate definition to mirror the duplication in the
source. -/
def gamma1Loop (s : ℕ → R) : ℕ → ℕ → Option (R × ℕ)
  | _, 0 => none
  | i, fuel + 1 =>
      if s i ≤ 1 / 10 ^ 7 then gamma1Loop s (i + 1) fuel
      else some (s i, i + 1)

/-- One candidate of Cheng's rejection loop plus its squeeze and exact
tests; `ainv`, `bbb`, `ccc` are the per-call constants computed before
the loop. -/
def chengLoop (P : Prims R) (alpha beta ainv bbb ccc : R) (s : ℕ → R) :
    ℕ → ℕ → Outcome R
  | _, 0 => .spin
  | i, fuel + 1 =>
      let u1 := s i
      if 1 / 10 ^ 7 < u1 ∧ u1 < 9999999 / 10 ^ 7 then
        let u2 := 1 - s (i + 1)
        let v := P.log (u1 / (1 - u1)) / ainv
        let x := alpha * P.exp v
        let z := u1 * u1 * u2
        let r := bbb + ccc * v - x
        if r + SG_MAGICCONST P - 9 / 2 * z ≥ 0 ∨ r ≥ P.log z then
          .ok (x * beta) (i + 2)
        else chengLoop P alpha beta ainv bbb ccc s (i + 2) fuel
      else chengLoop P alpha beta ainv bbb ccc s (i + 1) fuel

/-- The candidate value of one iteration of Algorithm GS
(`0 < alpha < 1` branch of `gammavariate`) as a function of the first
draw `u` of the iteration: `x = p**(1/alpha)` when `p <= 1`, else
`x = -log((b-p)/alpha)`. -/
def gsX (P : Prims R) (alpha u : R) : R :=
  let b := (P.e + alpha) / P.e
  let p := b * u
  if p ≤ 1 then P.rpow p (1 / alpha) else -P.log ((b - p) / alpha)

/-- Algorithm GS rejection loop (`0 < alpha < 1` branch of
`gammavariate`): each iteration consumes the candidate draw `u` and the
acceptance draw `u1`. -/
def gsLoop (P : Prims R) (alpha beta : R) (s : ℕ → R) : ℕ → ℕ → Outcome R
  | _, 0 => .spin
  | i, fuel + 1 =>
      let u := s i
      let b := (P.e + alpha) / P.e
      let p := b * u
      let x := gsX P alpha u
      let u1 := s (i + 1)
      if 1 < p then
        if u1 ≤ P.rpow x (alpha - 1) then .ok (x * beta) (i + 2)
        else gsLoop P alpha beta s (i + 2) fuel
      else
        if u1 ≤ P.exp (-x) then .ok (x * beta) (i + 2)
        else gsLoop P alpha beta s (i + 2) fuel

/-- `gammavariate(alpha, beta)`: validation at entry, then one of the
three regimes (Cheng for `alpha > 1`, inline exponential for
`alpha == 1`, Algorithm GS for `0 < alpha < 1`). -/
def gammavariate (P : Prims R) (alpha beta : R) (s : ℕ → R) (i fuel : ℕ) :
    Outcome R :=
  if alpha ≤ 0 ∨ beta ≤ 0 then .err .valueError i
  else if 1 < alpha then
    chengLoop P alpha beta (P.sqrt (2 * alpha - 1)) (alpha - LOG4 P)
      (alpha + P.sqrt (2 * alpha - 1)) s i fuel
  else if alpha = 1 then
    match gamma1Loop s i fuel with
    | none => .spin
    | some (u, j) => .ok (-P.log u * beta) j
  else gsLoop P alpha beta s i fuel

/-- `betavariate(alpha, beta)`: two `gammavariate(·, 1)` calls on the
same stream, the second starting at the cursor the first left; the
`y == 0` guard short-circuits the second call, and the final division
raises a division error on a zero denominator as Python does. -/
def betavariate (P : Prims R) (alpha beta : R) (s : ℕ → R) (i fuel : ℕ) :
    Outcome R :=
  match gammavariate P alpha 1 s i fuel with
  | .err e j => .err e j
  | .spin => .spin
  | .ok y j =>
      if y = 0 then .ok 0 j
      else
        match gammavariate P beta 1 s j fuel with
        | .err e k => .err e k
        | .spin => .spin
        | .ok z k =>
            if y + z = 0 then .err .zeroDivisionError k
            else .ok (y / (y + z)) k

/-- The tail of `triangular` after `u` and `c` are fixed: reflect when
`u > c` (swapping `low` and `high`), then `low + (high-low)*(u*c)**0.5`
(the exponent `0.5` is the square root on the nonnegative products that
arise here). -/
def triCore (P : Prims R) (low high c u : R) : R :=
  if c < u then high + (low - high) * P.sqrt ((1 - u) * (1 - c))
  else low + (high - low) * P.sqrt (u * c)

/-- `triangular(low, high, mode)`: the draw is consumed first, then the
mode ratio `(mode-low)/(high-low)` is computed only when `mode` is
supplied, raising a division error when `high - low` is zero. -/
def triangular (P : Prims R) (low high : R) (mode : Option R) (s : ℕ → R)
    (i : ℕ) : Outcome R :=
  let u := s i
  match mode with
  | none => .ok (triCore P low high (1 / 2) u) (i + 1)
  | some m =>
      if high - low = 0 then .err .zeroDivisionError (i + 1)
      else .ok (triCore P low high ((m - low) / (high - low)) u) (i + 1)

/-- The Best–Fisher rejection loop of `vonmisesvariate`; `r` is the
per-call constant.  Each iteration consumes `u1` and `u2`; on acceptance
a third draw `u3` picks the sign of the angle offset. -/
def vmLoop [FloorRing R] (P : Prims R) (mu kappa r : R) (s : ℕ → R) :
    ℕ → ℕ → Outcome R
  | _, 0 => .spin
  | i, fuel + 1 =>
      let u1 := s i
      let z := P.cos (P.pi * u1)
      let f := (1 + r * z) / (r + z)
      let c := kappa * (r - f)
      let u2 := s (i + 1)
      if u2 < c * (2 - c) ∨ u2 ≤ c * P.exp (1 - c) then
        let u3 := s (i + 2)
        if 1 / 2 < u3 then .ok (pymod mu (TWOPI P) + P.acos f) (i + 3)
        else .ok (pymod mu (TWOPI P) - P.acos f) (i + 3)
      else vmLoop P mu kappa r s (i + 2) fuel

/-- `vonmisesvariate(mu, kappa)`: for `kappa <= 1e-6` a single draw
scaled to a uniform angle, otherwise the Best–Fisher loop with its
per-call constants. -/
def vonmisesvariate [FloorRing R] (P : Prims R) (mu kappa : R) (s : ℕ → R)
    (i fuel : ℕ) : Outcome R :=
  if kappa ≤ 1 / 10 ^ 6 then .ok (TWOPI P * s i) (i + 1)
  else
    let a := 1 + P.sqrt (1 + 4 * kappa * kappa)
    let b := (a - P.sqrt (2 * a)) / (2 * kappa)
    let r := (1 + b * b) / (2 * b)
    vmLoop P mu kappa r s i fuel

/-- `gauss(mu, sigma)`: the cached tail `gauss_next` is the third
component of the result state; a present tail is consumed with zero
draws, an absent one triggers the two-draw Box–Muller step that caches
the sine component. -/
def gauss (P : Prims R) (mu sigma : R) (s : ℕ → R) (i : ℕ)
    (gaussNext : Option R) : R × ℕ × Option R :=
  match gaussNext with
  | some z => (mu + z * sigma, i, none)
  | none =>
      let x2pi := s i * TWOPI P
      let g2rad := P.sqrt (-2 * P.log (1 - s (i + 1)))
      (mu + P.cos x2pi * g2rad * sigma, i + 2, some (P.sin x2pi * g2rad))

end Embedding

/-- The real instantiation of the primitives: the model of the running
program. -/
noncomputable def Rprims : Prims ℝ :=
  ⟨Real.log, Real.exp, Real.sqrt, Real.sin, Real.cos, Real.arccos,
    Real.pi, Real.exp 1, fun x y => x ^ y⟩

/-- A rational instance of the primitives, used only to run the generic
control-flow theorems on concrete inputs. -/
def qPrims : Prims ℚ :=
  ⟨fun _ => 0, fun _ => 1, fun _ => 0, fun _ => 0, fun _ => 1, fun _ => 0,
    3, 3, fun _ _ => 1⟩

/-- The constant stream that always draws one half. -/
noncomputable def halfS : ℕ → ℝ := fun _ => 1 / 2

/-- The rational constant stream that always draws one half. -/
def halfQ : ℕ → ℚ := fun _ => 1 / 2

section ControlFlow

variable {R : Type} [LinearOrderedField R]

lemma gamma1Loop_eq_expoLoop (s : ℕ → R) :
    ∀ fuel i, gamma1Loop s i fuel = expoLoop (R := R) s i fuel := by
  intro fuel
  induction fuel with
  | zero => intro i; rfl
  | succ n ih =>
      intro i
      simp only [gamma1Loop, expoLoop]
      split_ifs with h
      · exact ih (i + 1)
      · rfl

lemma chengLoop_ne_err (P : Prims R) (alpha beta ainv bbb ccc : R)
    (s : ℕ → R) :
    ∀ fuel i e j, chengLoop P alpha beta ainv bbb ccc s i fuel ≠ .err e j := by
  intro fuel
  induction fuel with
  | zero => intro i e j h; exact Outcome.noConfusion h
  | succ n ih =>
      intro i e j h
      simp only [chengLoop] at h
      split_ifs at h with h1 h2
      all_goals first
        | exact Outcome.noConfusion h
        | exact ih _ e j h

lemma gsLoop_ne_err (P : Prims R) (alpha beta : R) (s : ℕ → R) :
    ∀ fuel i e j, gsLoop P alpha beta s i fuel ≠ .err e j := by
  intro fuel
  induction fuel with
  | zero => intro i e j h; exact Outcome.noConfusion h
  | succ n ih =>
      intro i e j h
      simp only [gsLoop] at h
      split_ifs at h with h1 h2 h3
      all_goals first
        | exact Outcome.noConfusion h
        | exact ih _ e j h

lemma gammavariate_ne_err (P : Prims R) {alpha beta : R}
    (hv : ¬(alpha ≤ 0 ∨ beta ≤ 0)) (s : ℕ → R) (i fuel : ℕ) (e : Err) (j : ℕ) :
    gammavariate P alpha beta s i fuel ≠ .err e j := by
  rw [gammavariate, if_neg hv]
  split_ifs with h1 h2
  · exact chengLoop_ne_err P alpha beta _ _ _ s fuel i e j
  · cases gamma1Loop s i fuel with
    | none => exact fun h => Outcome.noConfusion h
    | some uj => exact fun h => Outcome.noConfusion h
  · exact gsLoop_ne_err P alpha beta s fuel i e j

/-- C1: `gammavariate` raises the invalid-argument condition exactly
when `alpha <= 0` or `beta <= 0`, and for positive `alpha`, `beta` no
run raises anything, whichever regime is taken. -/
theorem gammavariate_invalid_iff (P : Prims R) (alpha beta : R) (s : ℕ → R)
    (i fuel : ℕ) :
    ((∃ j, gammavariate P alpha beta s i fuel = .err .valueError j) ↔
      alpha ≤ 0 ∨ beta ≤ 0) ∧
    (0 < alpha → 0 < beta →
      ∀ e j, gammavariate P alpha beta s i fuel ≠ .err e j) := by
  constructor
  · constructor
    · rintro ⟨j, hj⟩
      by_contra hv
      exact gammavariate_ne_err P hv s i fuel .valueError j hj
    · intro hv
      exact ⟨i, by rw [gammavariate, if_pos hv]⟩
  · intro ha hb e j
    exact gammavariate_ne_err P
      (not_or.mpr ⟨not_le.mpr ha, not_le.mpr hb⟩) s i fuel e j

/-- C1, instantiated: the equivalence and the no-raise guarantee at
concrete parameters. -/
theorem gammavariate_invalid_iff_witness :
    (((∃ j, gammavariate qPrims (-1) 2 halfQ 0 3 = .err .valueError j) ↔
        (-1 : ℚ) ≤ 0 ∨ (2 : ℚ) ≤ 0) ∧
      (0 < (-1 : ℚ) → 0 < (2 : ℚ) →
        ∀ e j, gammavariate qPrims (-1) 2 halfQ 0 3 ≠ .err e j)) ∧
    (∀ e j, gammavariate qPrims 2 3 halfQ 0 3 ≠ .err e j) :=
  ⟨gammavariate_invalid_iff qPrims (-1) 2 halfQ 0 3,
    (gammavariate_invalid_iff qPrims 2 3 halfQ 0 3).2 (by norm_num) (by norm_num)⟩

/-- C3: on a fresh generator the first `gauss` call consumes exactly the
two draws `s i` and `s (i+1)`, returns `mu + cos(x·2π)·g·sigma` with
`g = sqrt(-2·log(1 - s (i+1)))`, and caches `sin(x·2π)·g`; the
immediately following call consumes zero draws, returns `mu` plus the
cached value times `sigma`, and leaves the cache empty. -/
theorem gauss_pair_spec (P : Prims R) (mu sigma : R) (s : ℕ → R) (i : ℕ) :
    gauss P mu sigma s i none =
      (mu + P.cos (s i * TWOPI P) * P.sqrt (-2 * P.log (1 - s (i + 1))) * sigma,
        i + 2,
        some (P.sin (s i * TWOPI P) * P.sqrt (-2 * P.log (1 - s (i + 1))))) ∧
    gauss P mu sigma s (i + 2)
        (some (P.sin (s i * TWOPI P) * P.sqrt (-2 * P.log (1 - s (i + 1))))) =
      (mu + P.sin (s i * TWOPI P) * P.sqrt (-2 * P.log (1 - s (i + 1))) * sigma,
        i + 2, none) :=
  ⟨rfl, rfl⟩

/-- C6: with `beta = 1` and `lambd = 1`, the `alpha == 1` branch of
`gammavariate` runs the same retry loop on the same draws and returns
the same value as `expovariate`. -/
theorem gammavariate_one_eq_expovariate (P : Prims R) (s : ℕ → R)
    (i fuel : ℕ) :
    gammavariate P 1 1 s i fuel = expovariate P 1 s i fuel := by
  have h1 : ¬((1 : R) ≤ 0 ∨ (1 : R) ≤ 0) := by
    simp
  rw [gammavariate, expovariate, if_neg h1, if_neg (lt_irrefl (1 : R)),
    if_pos rfl, gamma1Loop_eq_expoLoop]
  cases expoLoop s i fuel with
  | none => rfl
  | some uj =>
      obtain ⟨u, j⟩ := uj
      simp [one_ne_zero]

/-- C10: when `low == high`, `triangular` without a mode returns `low`
(the zero-width factor kills the square-root term and the mode ratio is
never formed), while an explicitly supplied mode divides by
`high - low == 0` and raises a division error instead of returning. -/
theorem triangular_degenerate (P : Prims R) (low m : R) (s : ℕ → R) (i : ℕ) :
    triangular P low low none s i = .ok low (i + 1) ∧
    triangular P low low (some m) s i = .err .zeroDivisionError (i + 1) := by
  constructor
  · simp [triangular, triCore]
  · simp [triangular]

end ControlFlow

section Scaling

variable {R : Type} [LinearOrderedField R]

lemma chengLoop_scale (P : Prims R) (alpha beta ainv bbb ccc : R)
    (s : ℕ → R) :
    ∀ fuel i, chengLoop P alpha beta ainv bbb ccc s i fuel =
      (chengLoop P alpha 1 ainv bbb ccc s i fuel).scale beta := by
  intro fuel
  induction fuel with
  | zero => intro i; rfl
  | succ n ih =>
      intro i
      simp only [chengLoop]
      split_ifs with h1 h2
      all_goals first
        | exact ih _
        | simp [Outcome.scale]

lemma gsLoop_scale (P : Prims R) (alpha beta : R) (s : ℕ → R) :
    ∀ fuel i, gsLoop P alpha beta s i fuel =
      (gsLoop P alpha 1 s i fuel).scale beta := by
  intro fuel
  induction fuel with
  | zero => intro i; rfl
  | succ n ih =>
      intro i
      simp only [gsLoop]
      split_ifs with h1 h2 h3
      all_goals first
        | exact ih _
        | simp [Outcome.scale]

/-- C5: for positive parameters, `gammavariate(alpha, beta)` consumes
exactly the draws and takes exactly the accept/reject path of
`gammavariate(alpha, 1)` on the same stream, and its value is the
`alpha = 1`-scale result multiplied by `beta`, in every regime. -/
theorem gammavariate_beta_scales (P : Prims R) (alpha beta : R) (s : ℕ → R)
    (i fuel : ℕ) (ha : 0 < alpha) (hb : 0 < beta) :
    gammavariate P alpha beta s i fuel =
      (gammavariate P alpha 1 s i fuel).scale beta := by
  have hv : ¬(alpha ≤ 0 ∨ beta ≤ 0) :=
    not_or.mpr ⟨not_le.mpr ha, not_le.mpr hb⟩
  have hv1 : ¬(alpha ≤ 0 ∨ (1 : R) ≤ 0) :=
    not_or.mpr ⟨not_le.mpr ha, not_le.mpr one_pos⟩
  rw [gammavariate, gammavariate, if_neg hv, if_neg hv1]
  split_ifs with h1 h2
  · exact chengLoop_scale P alpha beta _ _ _ s fuel i
  · cases gamma1Loop s i fuel with
    | none => rfl
    | some uj => simp [Outcome.scale]
  · exact gsLoop_scale P alpha beta s fuel i

/-- C5, instantiated at concrete positive parameters. -/
theorem gammavariate_beta_scales_witness :
    gammavariate qPrims 2 3 halfQ 0 4 =
      (gammavariate qPrims 2 1 halfQ 0 4).scale 3 :=
  gammavariate_beta_scales qPrims 2 3 halfQ 0 4 (by norm_num) (by norm_num)

end Scaling

/-- The draw stream of the degenerate beta counterexample: one half,
then exact zeros. -/
noncomputable def s4 : ℕ → ℝ := fun n => if n = 0 then 1 / 2 else 0

lemma Unit01_halfS : Unit01 halfS := by
  intro n
  refine ⟨?_, ?_⟩ <;> norm_num [halfS]

lemma Unit01_s4 : Unit01 s4 := by
  intro n
  by_cases h : n = 0
  · norm_num [s4, h]
  · norm_num [s4, h]

lemma expoLoop_some {R : Type} [LinearOrderedField R] (s : ℕ → R) :
    ∀ fuel i u j, expoLoop s i fuel = some (u, j) →
      ∃ k, i ≤ k ∧ j = k + 1 ∧ u = s k ∧ 1 / 10 ^ 7 < u := by
  intro fuel
  induction fuel with
  | zero => intro i u j h; exact Option.noConfusion h
  | succ n ih =>
      intro i u j h
      simp only [expoLoop] at h
      split_ifs at h with hle
      · obtain ⟨k, hik, hj, hu, hlt⟩ := ih (i + 1) u j h
        exact ⟨k, by omega, hj, hu, hlt⟩
      · obtain ⟨hu, hj⟩ := Option.some.inj h |> Prod.mk.inj
        exact ⟨i, le_refl i, hj.symm, hu.symm, by rw [hu] at hle; exact not_le.mp hle⟩

/-- C7: whenever `expovariate(lambd)` returns with `lambd ≠ 0`, the
accepted draw `u` satisfies `1e-7 < u < 1` (smaller draws were discarded
and re-drawn), the result is `-log(u)/lambd`, and for `lambd > 0` it is
strictly positive. -/
theorem expovariate_log_guard (lambd : ℝ) (s : ℕ → ℝ) (i fuel : ℕ)
    (hl : lambd ≠ 0) (hs : Unit01 s) (r : ℝ) (j : ℕ)
    (h : expovariate Rprims lambd s i fuel = .ok r j) :
    ∃ u, 1 / 10 ^ 7 < u ∧ u < 1 ∧ r = -Real.log u / lambd ∧
      (0 < lambd → 0 < r) := by
  rw [expovariate] at h
  cases hq : expoLoop s i fuel with
  | none => rw [hq] at h; exact Outcome.noConfusion h
  | some uj =>
      obtain ⟨u, k⟩ := uj
      rw [hq] at h
      have h' : (if lambd = 0 then Outcome.err Err.zeroDivisionError k
          else Outcome.ok (-Rprims.log u / lambd) k) = Outcome.ok r j := h
      rw [if_neg hl] at h'
      obtain ⟨hr, hk⟩ := Outcome.ok.inj h'
      obtain ⟨k', hik, hjk, hu, hlt⟩ := expoLoop_some s fuel i u k hq
      have hu1 : u < 1 := hu ▸ (hs k').2
      have hupos : 0 < u := lt_trans (by norm_num) hlt
      have hlog : Real.log u < 0 := Real.log_neg hupos hu1
      refine ⟨u, hlt, hu1, hr.symm, fun hpos => ?_⟩
      rw [← hr]
      exact div_pos (by simpa using hlog) hpos

lemma expovariate_half_eval :
    expovariate Rprims 1 halfS 0 1 = .ok (-Real.log (1 / 2) / 1) 1 := by
  have h0 : expoLoop halfS 0 1 = some (1 / 2, 1) := by
    simp only [expoLoop, halfS]
    norm_num
  simp only [expovariate, h0]
  norm_num [Rprims]

/-- C7, instantiated at `lambd = 1` on the constant stream of halves. -/
theorem expovariate_log_guard_witness :
    (1 : ℝ) ≠ 0 ∧ Unit01 halfS ∧
    (∃ u, 1 / 10 ^ 7 < u ∧ u < 1 ∧
      -Real.log (1 / 2) / 1 = -Real.log u / 1 ∧
      ((0 : ℝ) < 1 → 0 < -Real.log (1 / 2) / 1)) :=
  ⟨one_ne_zero, Unit01_halfS,
    expovariate_log_guard 1 halfS 0 1 one_ne_zero Unit01_halfS
      (-Real.log (1 / 2) / 1) 1 expovariate_half_eval⟩

lemma gammavariate_one_one_eval (s : ℕ → ℝ) (h : s 0 = 1 / 2) :
    gammavariate Rprims 1 1 s 0 1 = .ok (-Real.log (1 / 2) * 1) 1 := by
  have h0 : gamma1Loop s 0 1 = some (1 / 2, 1) := by
    simp only [gamma1Loop, h]
    norm_num
  rw [gammavariate, if_neg (by norm_num), if_neg (lt_irrefl (1 : ℝ)),
    if_pos rfl, h0]
  rfl

/-- C2 counterexample: `betavariate(1, -1)` raises the invalid-argument
condition only after its first `gammavariate(1, 1)` call consumed a
draw — the raise happens at cursor 1, not at the call-entry cursor 0. -/
theorem betavariate_raise_after_draw_cex :
    Unit01 halfS ∧
    betavariate Rprims 1 (-1) halfS 0 1 = .err .valueError 1 := by
  refine ⟨Unit01_halfS, ?_⟩
  have h1 : gammavariate Rprims 1 1 halfS 0 1 = .ok (-Real.log (1 / 2) * 1) 1 :=
    gammavariate_one_one_eval halfS rfl
  have hlog : Real.log (1 / 2) < 0 := Real.log_neg (by norm_num) (by norm_num)
  have hy : -Real.log (1 / 2) * 1 ≠ 0 := by
    rw [mul_one]
    exact neg_ne_zero.mpr (ne_of_lt hlog)
  have h2 : gammavariate Rprims (-1) 1 halfS 1 1 = .err .valueError 1 := by
    rw [gammavariate, if_pos (Or.inl (by norm_num))]
  simp only [betavariate, h1, if_neg hy, h2]

/-- C2 (amended): `gammavariate` raises at entry with zero draws
consumed, and so does `betavariate` when `alpha <= 0`; but when
`alpha > 0` and `beta <= 0`, `betavariate` raises only at the cursor its
first (successful, nonzero) gamma call reached, i.e. after consuming
that call's draws — and when that first gamma sample is exactly 0 it
returns `0.0` at that same cursor without raising at all. -/
theorem invalid_raise_entry_amended {R : Type} [LinearOrderedField R]
    (P : Prims R) (alpha beta : R) (s : ℕ → R) (i fuel : ℕ) :
    (alpha ≤ 0 ∨ beta ≤ 0 →
      gammavariate P alpha beta s i fuel = .err .valueError i) ∧
    (alpha ≤ 0 → betavariate P alpha beta s i fuel = .err .valueError i) ∧
    (0 < alpha → beta ≤ 0 →
      ∀ y j, gammavariate P alpha 1 s i fuel = .ok y j → y ≠ 0 →
        betavariate P alpha beta s i fuel = .err .valueError j) ∧
    (0 < alpha → beta ≤ 0 →
      ∀ j, gammavariate P alpha 1 s i fuel = .ok 0 j →
        betavariate P alpha beta s i fuel = .ok 0 j) := by
  refine ⟨fun hv => by rw [gammavariate, if_pos hv], ?_, ?_, ?_⟩
  · intro ha
    have h1 : gammavariate P alpha 1 s i fuel = .err .valueError i := by
      rw [gammavariate, if_pos (Or.inl ha)]
    simp only [betavariate, h1]
  · intro ha hb y j hok hy
    have h2 : gammavariate P beta 1 s j fuel = .err .valueError j := by
      rw [gammavariate, if_pos (Or.inl hb)]
    simp only [betavariate, hok, if_neg hy, h2]
  · intro ha hb j hok
    simp [betavariate, hok]

/-- C9: for `0 ≤ kappa ≤ 1e-6` the von Mises sampler takes the
degenerate branch: it consumes exactly one draw, never enters the
rejection loop, ignores `mu`, and returns the uniform angle
`2π·u ∈ [0, 2π)`. -/
theorem vonmises_small_kappa (mu kappa : ℝ) (s : ℕ → ℝ) (i fuel : ℕ)
    (_hk0 : 0 ≤ kappa) (hk : kappa ≤ 1 / 10 ^ 6) (hs : Unit01 s) :
    vonmisesvariate Rprims mu kappa s i fuel =
      .ok (2 * Real.pi * s i) (i + 1) ∧
    0 ≤ 2 * Real.pi * s i ∧ 2 * Real.pi * s i < 2 * Real.pi := by
  have hpi := Real.pi_pos
  obtain ⟨h0, h1⟩ := hs i
  refine ⟨?_, ?_, ?_⟩
  · rw [vonmisesvariate, if_pos hk]
    rfl
  · have : (0 : ℝ) ≤ 2 * Real.pi := by linarith
    exact mul_nonneg this h0
  · have h2 : 2 * Real.pi * s i < 2 * Real.pi * 1 :=
      mul_lt_mul_of_pos_left h1 (by linarith)
    simpa using h2

/-- C9, instantiated at `kappa = 0`, `mu = 5` on the constant stream of
halves. -/
theorem vonmises_small_kappa_witness :
    (0 : ℝ) ≤ 0 ∧ (0 : ℝ) ≤ 1 / 10 ^ 6 ∧ Unit01 halfS ∧
    (vonmisesvariate Rprims 5 0 halfS 0 1 = .ok (2 * Real.pi * halfS 0) 1 ∧
      0 ≤ 2 * Real.pi * halfS 0 ∧ 2 * Real.pi * halfS 0 < 2 * Real.pi) :=
  ⟨le_refl 0, by norm_num, Unit01_halfS,
    vonmises_small_kappa 5 0 halfS 0 1 (le_refl 0) (by norm_num) Unit01_halfS⟩

lemma triCore_mem (low high c u : ℝ) (hlh : low < high) (hc0 : 0 ≤ c)
    (hc1 : c ≤ 1) (hu0 : 0 ≤ u) (hu1 : u < 1) :
    low ≤ triCore Rprims low high c u ∧ triCore Rprims low high c u ≤ high := by
  simp only [triCore, Rprims]
  split_ifs with h
  · have ht0 : 0 ≤ Real.sqrt ((1 - u) * (1 - c)) := Real.sqrt_nonneg _
    have ht1 : Real.sqrt ((1 - u) * (1 - c)) ≤ 1 := by
      rw [Real.sqrt_le_one]
      nlinarith
    have e1 : (low - high) * Real.sqrt ((1 - u) * (1 - c)) =
        -((high - low) * Real.sqrt ((1 - u) * (1 - c))) := by ring
    have h2 : 0 ≤ (high - low) * Real.sqrt ((1 - u) * (1 - c)) :=
      mul_nonneg (by linarith) ht0
    have h3 : (high - low) * Real.sqrt ((1 - u) * (1 - c)) ≤ high - low :=
      mul_le_of_le_one_right (by linarith) ht1
    constructor <;> linarith [e1, h2, h3]
  · have ht0 : 0 ≤ Real.sqrt (u * c) := Real.sqrt_nonneg _
    have ht1 : Real.sqrt (u * c) ≤ 1 := by
      rw [Real.sqrt_le_one]
      nlinarith
    have h2 : 0 ≤ (high - low) * Real.sqrt (u * c) :=
      mul_nonneg (by linarith) ht0
    have h3 : (high - low) * Real.sqrt (u * c) ≤ high - low :=
      mul_le_of_le_one_right (by linarith) ht1
    constructor <;> linarith

/-- C8: for `low < high` and a mode inside `[low, high]` (or absent),
`triangular` consumes exactly one draw, never loops, and its result lies
in `[low, high]`. -/
theorem triangular_range (low high : ℝ) (mode : Option ℝ) (s : ℕ → ℝ)
    (i : ℕ) (hlh : low < high)
    (hm : ∀ m, mode = some m → low ≤ m ∧ m ≤ high) (hs : Unit01 s) :
    ∃ r, triangular Rprims low high mode s i = .ok r (i + 1) ∧
      low ≤ r ∧ r ≤ high := by
  obtain ⟨hu0, hu1⟩ := hs i
  cases mode with
  | none =>
      exact ⟨_, rfl,
        triCore_mem low high (1 / 2) (s i) hlh (by norm_num) (by norm_num)
          hu0 hu1⟩
  | some m =>
      obtain ⟨hm1, hm2⟩ := hm m rfl
      have hne : high - low ≠ 0 := sub_ne_zero.mpr (ne_of_gt hlh)
      have hc0 : 0 ≤ (m - low) / (high - low) :=
        div_nonneg (by linarith) (by linarith)
      have hc1 : (m - low) / (high - low) ≤ 1 := by
        rw [div_le_one (by linarith)]
        linarith
      refine ⟨_, ?_, triCore_mem low high _ (s i) hlh hc0 hc1 hu0 hu1⟩
      simp only [triangular, if_neg hne]

/-- C8, instantiated on the unit triangle with the mode absent. -/
theorem triangular_range_witness :
    (0 : ℝ) < 1 ∧ Unit01 halfS ∧
    (∃ r, triangular Rprims 0 1 none halfS 0 = .ok r 1 ∧ 0 ≤ r ∧ r ≤ 1) :=
  ⟨by norm_num, Unit01_halfS,
    triangular_range 0 1 none halfS 0 (by norm_num)
      (fun m h => Option.noConfusion h) Unit01_halfS⟩

lemma chengLoop_ok_pos (alpha beta ainv bbb ccc : ℝ) (s : ℕ → ℝ)
    (ha : 0 < alpha) (hb : 0 < beta) :
    ∀ fuel i y j,
      chengLoop Rprims alpha beta ainv bbb ccc s i fuel = .ok y j → 0 < y := by
  intro fuel
  induction fuel with
  | zero => intro i y j h; exact Outcome.noConfusion h
  | succ n ih =>
      intro i y j h
      simp only [chengLoop] at h
      split_ifs at h with h1 h2
      all_goals first
        | exact ih _ y j h
        | (obtain ⟨hy, hj⟩ := Outcome.ok.inj h
           rw [← hy]
           exact mul_pos (mul_pos ha (Real.exp_pos _)) hb)

lemma gsLoop_ok_val (alpha beta : ℝ) (s : ℕ → ℝ) :
    ∀ fuel i y j, gsLoop Rprims alpha beta s i fuel = .ok y j →
      ∃ k, i ≤ k ∧ y = gsX Rprims alpha (s k) * beta := by
  intro fuel
  induction fuel with
  | zero => intro i y j h; exact Outcome.noConfusion h
  | succ n ih =>
      intro i y j h
      simp only [gsLoop] at h
      split_ifs at h with h1 h2
      all_goals first
        | (obtain ⟨k, hik, hy⟩ := ih _ y j h
           exact ⟨k, by omega, hy⟩)
        | (obtain ⟨hy, hj⟩ := Outcome.ok.inj h
           exact ⟨i, le_refl i, hy.symm⟩)

lemma gsX_nonneg (alpha u : ℝ) (ha : 0 < alpha) (hu0 : 0 ≤ u)
    (hu1 : u < 1) : 0 ≤ gsX Rprims alpha u := by
  have he : (0 : ℝ) < Real.exp 1 := Real.exp_pos 1
  have he1 : (1 : ℝ) ≤ Real.exp 1 := Real.one_le_exp (by norm_num)
  have hb : (0 : ℝ) < (Real.exp 1 + alpha) / Real.exp 1 :=
    div_pos (by linarith) he
  simp only [gsX, Rprims]
  split_ifs with hp
  · exact Real.rpow_nonneg (mul_nonneg hb.le hu0) _
  · push_neg at hp
    have hplt : (Real.exp 1 + alpha) / Real.exp 1 * u <
        (Real.exp 1 + alpha) / Real.exp 1 := by
      nlinarith
    have hnum0 : 0 < (Real.exp 1 + alpha) / Real.exp 1 -
        (Real.exp 1 + alpha) / Real.exp 1 * u := by linarith
    have harg0 : 0 ≤ ((Real.exp 1 + alpha) / Real.exp 1 -
        (Real.exp 1 + alpha) / Real.exp 1 * u) / alpha :=
      div_nonneg hnum0.le ha.le
    have hbm1 : (Real.exp 1 + alpha) / Real.exp 1 - 1 = alpha / Real.exp 1 := by
      field_simp
    have hae : alpha / Real.exp 1 ≤ alpha := by
      rw [div_le_iff₀ he]
      nlinarith
    have harg1 : ((Real.exp 1 + alpha) / Real.exp 1 -
        (Real.exp 1 + alpha) / Real.exp 1 * u) / alpha ≤ 1 := by
      rw [div_le_one ha]
      linarith
    have := Real.log_nonpos harg0 harg1
    linarith

lemma gammavariate_ok_nonneg {alpha beta : ℝ} (ha : 0 < alpha)
    (hb : 0 < beta) {s : ℕ → ℝ} (hs : Unit01 s) {i fuel : ℕ} {y : ℝ} {j : ℕ}
    (h : gammavariate Rprims alpha beta s i fuel = .ok y j) : 0 ≤ y := by
  rw [gammavariate,
    if_neg (not_or.mpr ⟨not_le.mpr ha, not_le.mpr hb⟩)] at h
  split_ifs at h with h1 h2
  · exact (chengLoop_ok_pos alpha beta _ _ _ s ha hb fuel i y j h).le
  · cases hq : gamma1Loop s i fuel with
    | none => rw [hq] at h; exact Outcome.noConfusion h
    | some uj =>
        obtain ⟨u, k⟩ := uj
        rw [hq] at h
        have h' : Outcome.ok (-Rprims.log u * beta) k = Outcome.ok y j := h
        obtain ⟨hy, hk⟩ := Outcome.ok.inj h'
        rw [gamma1Loop_eq_expoLoop] at hq
        obtain ⟨k', hik, hjk, hu, hlt⟩ := expoLoop_some s fuel i u k hq
        have hu1 : u < 1 := hu ▸ (hs k').2
        have hupos : 0 < u := lt_trans (by norm_num) hlt
        have hlog : Real.log u < 0 := Real.log_neg hupos hu1
        have : (0 : ℝ) < -Rprims.log u * beta := by
          refine mul_pos ?_ hb
          show (0 : ℝ) < -Real.log u
          linarith
        linarith [hy ▸ this]
  · obtain ⟨k, hik, hy⟩ := gsLoop_ok_val alpha beta s fuel i y j h
    have hg := gsX_nonneg alpha (s k) ha (hs k).1 (hs k).2
    rw [hy]
    exact mul_nonneg hg hb.le

lemma gsX_half_zero : gsX Rprims (1 / 2) 0 = 0 := by
  simp only [gsX, mul_zero]
  rw [if_pos (by norm_num : (0 : ℝ) ≤ 1)]
  show (0 : ℝ) ^ ((1 : ℝ) / (1 / 2)) = 0
  rw [show (1 : ℝ) / (1 / 2) = 2 by norm_num]
  exact Real.zero_rpow two_ne_zero

lemma gamma_gs_eval : gammavariate Rprims (1 / 2) 1 s4 1 1 = .ok 0 3 := by
  have h1 : s4 1 = 0 := rfl
  have h2 : s4 2 = 0 := rfl
  have hloop : gsLoop Rprims (1 / 2) 1 s4 1 1 = .ok 0 3 := by
    simp only [gsLoop, h1, h2, gsX_half_zero, mul_zero]
    rw [if_neg (by norm_num : ¬(1 : ℝ) < 0), if_pos]
    · norm_num
    · show (0 : ℝ) ≤ Real.exp (-0)
      positivity
  rw [gammavariate, if_neg (by norm_num), if_neg (by norm_num : ¬(1 : ℝ) < 1 / 2),
    if_neg (by norm_num : ¬(1 : ℝ) / 2 = 1)]
  exact hloop

lemma beta_s4_eval : betavariate Rprims 1 (1 / 2) s4 0 1 = .ok 1 3 := by
  have hg1 : gammavariate Rprims 1 1 s4 0 1 = .ok (-Real.log (1 / 2) * 1) 1 :=
    gammavariate_one_one_eval s4 rfl
  have hlog : Real.log (1 / 2) < 0 := Real.log_neg (by norm_num) (by norm_num)
  have hy : -Real.log (1 / 2) * 1 ≠ 0 := by
    rw [mul_one]
    exact neg_ne_zero.mpr (ne_of_lt hlog)
  have hsum : -Real.log (1 / 2) * 1 + 0 ≠ 0 := by
    rw [add_zero]
    exact hy
  simp only [betavariate, hg1, if_neg hy, gamma_gs_eval, if_neg hsum]
  rw [add_zero, div_self hy]

/-- C4 counterexample: on the well-formed stream `s4` (a half, then
exact zeros) with `alpha = 1 > 0` and `beta = 1/2 > 0`, the first
internal gamma sample is `log 2 > 0` but the second underflows to
exactly 0, and `betavariate` returns exactly 1 — outside `[0, 1)`. -/
theorem betavariate_returns_one_cex :
    Unit01 s4 ∧ 0 < (1 : ℝ) ∧ 0 < ((1 : ℝ) / 2) ∧
    betavariate Rprims 1 (1 / 2) s4 0 1 = .ok 1 3 ∧ ¬((1 : ℝ) < 1) :=
  ⟨Unit01_s4, by norm_num, by norm_num, beta_s4_eval, by norm_num⟩

/-- C4 (amended): for positive parameters and a well-formed stream,
whenever `betavariate` returns it returns a value in the closed interval
`[0, 1]`; the value is 0 exactly when the first internal
`gammavariate(alpha, 1)` sample is 0, and — when that sample is
nonzero — the value is 1 exactly when the second internal
`gammavariate(beta, 1)` sample is 0. -/
theorem betavariate_range_amended (alpha beta : ℝ) (s : ℕ → ℝ) (i fuel : ℕ)
    (ha : 0 < alpha) (hb : 0 < beta) (hs : Unit01 s) (r : ℝ) (j : ℕ)
    (h : betavariate Rprims alpha beta s i fuel = .ok r j) :
    0 ≤ r ∧ r ≤ 1 ∧
    ∃ y j1, gammavariate Rprims alpha 1 s i fuel = .ok y j1 ∧
      (r = 0 ↔ y = 0) ∧
      (y ≠ 0 → ∃ z j2, gammavariate Rprims beta 1 s j1 fuel = .ok z j2 ∧
        (r = 1 ↔ z = 0)) := by
  rw [betavariate] at h
  split at h
  next e j' hg1 => exact Outcome.noConfusion h
  next hg1 => exact Outcome.noConfusion h
  next y j1 hg1 =>
      have hynn : 0 ≤ y := gammavariate_ok_nonneg ha one_pos hs hg1
      by_cases hy : y = 0
      · rw [if_pos hy] at h
        obtain ⟨hr, -⟩ := Outcome.ok.inj h
        refine ⟨by rw [← hr], by rw [← hr]; norm_num, y, j1, hg1, ?_, ?_⟩
        · rw [← hr]
          exact ⟨fun _ => hy, fun _ => rfl⟩
        · intro hcon
          exact absurd hy hcon
      · rw [if_neg hy] at h
        split at h
        next e k hg2 => exact Outcome.noConfusion h
        next hg2 => exact Outcome.noConfusion h
        next z j2 hg2 =>
            have hznn : 0 ≤ z := gammavariate_ok_nonneg hb one_pos hs hg2
            have hypos : 0 < y := lt_of_le_of_ne hynn (Ne.symm hy)
            have hyz : 0 < y + z := by linarith
            rw [if_neg (ne_of_gt hyz)] at h
            obtain ⟨hr, -⟩ := Outcome.ok.inj h
            have hrpos : 0 < y / (y + z) := div_pos hypos hyz
            refine ⟨by rw [← hr]; exact hrpos.le, ?_, y, j1, hg1, ?_, ?_⟩
            · rw [← hr, div_le_one hyz]
              linarith
            · rw [← hr]
              exact ⟨fun h0 => absurd h0 (ne_of_gt hrpos), fun h0 => absurd h0 hy⟩
            · intro hyn
              refine ⟨z, j2, hg2, ?_⟩
              rw [← hr, div_eq_one_iff_eq (ne_of_gt hyz)]
              constructor
              · intro he
                linarith
              · intro he
                rw [he, add_zero]

/-- C4 (amended), instantiated on the counterexample stream, where the
returned value is exactly 1 and the second gamma sample is 0. -/
theorem betavariate_range_amended_witness :
    0 ≤ (1 : ℝ) ∧ (1 : ℝ) ≤ 1 ∧
    ∃ y j1, gammavariate Rprims 1 1 s4 0 1 = .ok y j1 ∧
      ((1 : ℝ) = 0 ↔ y = 0) ∧
      (y ≠ 0 → ∃ z j2, gammavariate Rprims (1 / 2) 1 s4 j1 1 = .ok z j2 ∧
        ((1 : ℝ) = 1 ↔ z = 0)) :=
  betavariate_range_amended 1 (1 / 2) s4 0 1 (by norm_num) (by norm_num)
    Unit01_s4 1 3 beta_s4_eval

/-- C2 (amended), instantiated: a rejected `alpha` raises with zero
draws consumed in both entry points; with `alpha > 0` and `beta ≤ 0` a
nonzero first gamma sample leads to the raise at cursor 1 (one draw
consumed), and a zero first gamma sample leads to a raise-free return
of `0.0`. -/
theorem invalid_raise_entry_amended_witness :
    gammavariate qPrims (-1) 2 halfQ 0 3 = .err .valueError 0 ∧
    betavariate qPrims (-1) 2 halfQ 0 3 = .err .valueError 0 ∧
    betavariate Rprims 1 (-1) halfS 0 1 = .err .valueError 1 ∧
    betavariate Rprims (1 / 2) (-1) s4 1 1 = .ok 0 3 :=
  ⟨(invalid_raise_entry_amended qPrims (-1) 2 halfQ 0 3).1
      (Or.inl (by norm_num)),
    (invalid_raise_entry_amended qPrims (-1) 2 halfQ 0 3).2.1 (by norm_num),
    (invalid_raise_entry_amended Rprims 1 (-1) halfS 0 1).2.2.1 (by norm_num)
      (by norm_num) (-Real.log (1 / 2) * 1) 1
      (gammavariate_one_one_eval halfS rfl)
      (by
        rw [mul_one]
        exact neg_ne_zero.mpr
          (ne_of_lt (Real.log_neg (by norm_num) (by norm_num)))),
    (invalid_raise_entry_amended Rprims (1 / 2) (-1) s4 1 1).2.2.2
      (by norm_num) (by norm_num) 3 gamma_gs_eval⟩
